import Mathlib

/-!
Verification of the LinDist3Flow solver (`src/lindist3flow.py`).

The Python module implements a linearized three-phase power-flow
computation on a radial (tree) network:

* `LinDist3FlowSolver.__init__` builds per-unit bases, children/parents
  dictionaries, a per-line per-unit impedance table and a BFS traversal
  order;
* `LinDist3FlowSolver._calc_M_matrices` produces the two fixed 3x3
  coupling matrices from a line's per-unit impedance matrices;
* `LinDist3FlowSolver.solve` runs a leaf-to-root power aggregation
  (backward sweep), a root-to-leaf squared-voltage propagation (forward
  sweep), and a clamped square-root recovery of voltage magnitudes.

The embedding below mirrors the Python code closely:

* numpy 2-D arrays become `NpMat`: an explicit shape together with an
  entry function; every numpy read that can raise (out-of-bounds
  indexing) goes through `Option`;
* Python dictionaries become functions into `Option` so that a `KeyError`
  is `none`; `dict` updates are `Function.update` / pointwise overrides
  (later writes win, as in Python);
* the unbounded BFS `while queue` loop becomes a fuel-indexed recursion;
  the fuel passed by the constructor is large enough for every radial
  input (each node is enqueued at most once per line), and exhausting it
  models the non-termination of the Python loop on cyclic inputs as a
  failed construction;
* floating-point arithmetic is idealized as real arithmetic.
-/

noncomputable section

namespace LinDist3Flow

/-- Three-phase real vector (one entry per phase a, b, c). -/
abbrev Vec3 := Fin 3 → ℝ

/-- 3x3 real matrix as used for the coupling matrices `mp`, `mq`. -/
abbrev Mat3 := Fin 3 → Fin 3 → ℝ

/-- A three-phase complex vector, split into (real part, imaginary part):
numpy complex arrays add componentwise, so the pair addition of `Vec3 × Vec3`
is exactly the complex vector addition used for `S_flow`. -/
abbrev PQ := Vec3 × Vec3

/-- A numpy 2-D array: an explicit shape plus an entry function.
Entries outside the shape are never observed (reads are bounds-checked). -/
structure NpMat where
  rows : ℕ
  cols : ℕ
  entry : ℕ → ℕ → ℝ

/-- Bounds-checked scalar read `m[i, j]`; `none` models an `IndexError`. -/
def NpMat.read (m : NpMat) (i j : ℕ) : Option ℝ :=
  if i < m.rows ∧ j < m.cols then some (m.entry i j) else none

/-- Elementwise scalar division `m / c` (shape preserved), used to convert
ohm-valued impedance matrices to per-unit in the constructor. -/
def NpMat.divScalar (m : NpMat) (c : ℝ) : NpMat :=
  ⟨m.rows, m.cols, fun i j => m.entry i j / c⟩

/-- The column read `m[:, j]` followed by its use as a 3-vector
(`s_load` is added to length-3 complex vectors).  A 3-row column is used
directly; a 1-row column would be broadcast by numpy; any other row count
makes the subsequent vector addition fail. -/
def NpMat.col3 (m : NpMat) (j : ℕ) : Option Vec3 :=
  if j < m.cols then
    if m.rows = 3 then some (fun i => m.entry i.val j)
    else if m.rows = 1 then some (fun _ => m.entry 0 j)
    else none
  else none

/-- A line record `{'from', 'to', 'r_matrix', 'x_matrix'}` (matrices in ohms). -/
structure Line where
  frm : ℕ
  tgt : ℕ
  r_matrix : NpMat
  x_matrix : NpMat

/-- The state of a constructed `LinDist3FlowSolver` object. -/
structure Solver where
  nodes : List ℕ
  n_nodes : ℕ
  node_map : ℕ → Option ℕ
  v_base : ℝ
  s_base : ℝ
  z_base : ℝ
  children : ℕ → Option (List ℕ)
  parents : ℕ → Option ℕ
  line_params : ℕ → ℕ → Option (NpMat × NpMat)
  order_down : List ℕ
  order_up : List ℕ

/-- One entry of the `{n: i for i, n in enumerate(nodes)}` comprehension:
bind identity `p.2` to index `p.1` (later writes win, as in a dict). -/
def nmStep (f : ℕ → Option ℕ) (p : ℕ × ℕ) : ℕ → Option ℕ :=
  Function.update f p.2 (some p.1)

/-- `{n: i for i, n in enumerate(nodes)}`. -/
def mkNodeMap (nodes : List ℕ) : ℕ → Option ℕ :=
  nodes.enum.foldl nmStep (fun _ => none)

/-- One iteration of the constructor's `for line in lines` loop, acting on
the triple (children, parents, line_params).  `children[u].append(v)`
raises a `KeyError` (here: `none`) when `u` is not a key; `parents[v] = u`
and the `line_params` write never fail. -/
def addLine (z_base : ℝ)
    (st : (ℕ → Option (List ℕ)) × (ℕ → Option ℕ) × (ℕ → ℕ → Option (NpMat × NpMat)))
    (l : Line) :
    Option ((ℕ → Option (List ℕ)) × (ℕ → Option ℕ) × (ℕ → ℕ → Option (NpMat × NpMat))) := do
  let ch ← st.1 l.frm
  let children := Function.update st.1 l.frm (some (ch ++ [l.tgt]))
  let parents := Function.update st.2.1 l.tgt (some l.frm)
  let line_params := fun u v =>
    if u = l.frm ∧ v = l.tgt
    then some (l.r_matrix.divScalar z_base, l.x_matrix.divScalar z_base)
    else st.2.2 u v
  some (children, parents, line_params)

/-- `_get_topological_order`'s BFS loop.  Each iteration pops the queue
head, appends it to the order and enqueues `children[u]`; accessing
`children[u]` for a non-key raises (`none`).  The loop is unbounded in
Python; the fuel argument bounds the number of iterations here. -/
def bfs (children : ℕ → Option (List ℕ)) :
    ℕ → List ℕ → List ℕ → Option (List ℕ)
  | _, [], order => some order
  | 0, _ :: _, _ => none
  | fuel + 1, u :: queue, order =>
    match children u with
    | none => none
    | some kids => bfs children fuel (queue ++ kids) (order ++ [u])

/-- `LinDist3FlowSolver.__init__` (defaults `v_base_kv=4.16`,
`s_base_mva=1.0` are supplied explicitly at call sites).  Construction
fails (`none`) exactly where the Python constructor raises: a line whose
from-bus is not a `children` key, a BFS visit of a bus that is not a
`children` key, an empty node list (`nodes[0]`), or a diverging BFS. -/
def init (nodes : List ℕ) (lines : List Line)
    (v_base_kv s_base_mva : ℝ) : Option Solver := do
  let v_base := v_base_kv * 1000
  let s_base := s_base_mva * 1000000
  let z_base := v_base ^ 2 / s_base
  let children0 : ℕ → Option (List ℕ) := fun n => if n ∈ nodes then some [] else none
  let parents0 : ℕ → Option ℕ := fun _ => none
  let lp0 : ℕ → ℕ → Option (NpMat × NpMat) := fun _ _ => none
  let st ← lines.foldlM (addLine z_base) (children0, parents0, lp0)
  let root ← nodes.head?
  let order ← bfs st.1 (nodes.length + lines.length + 1) [root] []
  some { nodes := nodes
         n_nodes := nodes.length
         node_map := mkNodeMap nodes
         v_base := v_base
         s_base := s_base
         z_base := z_base
         children := st.1
         parents := st.2.1
         line_params := st.2.2
         order_down := order
         order_up := order.reverse }

/-- `np.sqrt(3)`. -/
def sqrt3 : ℝ := Real.sqrt 3

/-- The `M^P` table of `_calc_M_matrices`: diagonal `-2 r[i,i]`,
off-diagonal the fixed sqrt(3) sign pattern (Eq. 28). -/
def calc_MP (r x : Mat3) : Mat3 :=
  ![![-2 * r 0 0, r 0 1 - sqrt3 * x 0 1, r 0 2 + sqrt3 * x 0 2],
    ![r 1 0 + sqrt3 * x 1 0, -2 * r 1 1, r 1 2 - sqrt3 * x 1 2],
    ![r 2 0 - sqrt3 * x 2 0, r 2 1 + sqrt3 * x 2 1, -2 * r 2 2]]

/-- The `M^Q` table of `_calc_M_matrices`: diagonal `-2 x[i,i]`,
off-diagonal with `r`/`x` swapped and the sqrt(3) signs flipped (Eq. 29). -/
def calc_MQ (r x : Mat3) : Mat3 :=
  ![![-2 * x 0 0, x 0 1 + sqrt3 * r 0 1, x 0 2 - sqrt3 * r 0 2],
    ![x 1 0 - sqrt3 * r 1 0, -2 * x 1 1, x 1 2 + sqrt3 * r 1 2],
    ![x 2 0 + sqrt3 * r 2 0, x 2 1 - sqrt3 * r 2 1, -2 * x 2 2]]

/-- Bounds-checked read of the nine entries `m[i, j]`, `i, j < 3`, that
`_calc_M_matrices` indexes in each impedance matrix; the first
out-of-bounds read raises (`none`). -/
def NpMat.read3x3 (m : NpMat) : Option Mat3 := do
  let a00 ← m.read 0 0
  let a11 ← m.read 1 1
  let a22 ← m.read 2 2
  let a01 ← m.read 0 1
  let a02 ← m.read 0 2
  let a10 ← m.read 1 0
  let a12 ← m.read 1 2
  let a20 ← m.read 2 0
  let a21 ← m.read 2 1
  some (![![a00, a01, a02], ![a10, a11, a12], ![a20, a21, a22]] : Mat3)

/-- `_calc_M_matrices`: bounds-checked reads of every impedance entry the
Python body indexes (all nine entries of `r_pu` and of `x_pu`; the Python
body interleaves the reads of the two matrices, which is observationally
the same as reading one matrix after the other), then the two closed-form
3x3 coupling matrices.  `mp`/`mq` are always exactly 3x3
(`np.zeros((3, 3))`); only the reads of `r_pu`/`x_pu` can raise. -/
def calc_M_matrices (r x : NpMat) : Option (Mat3 × Mat3) := do
  let r_pu ← r.read3x3
  let x_pu ← x.read3x3
  some (calc_MP r_pu x_pu, calc_MQ r_pu x_pu)

/-- `m @ v` for a 3x3 matrix and a 3-vector. -/
def mulVec3 (m : Mat3) (v : Vec3) : Vec3 :=
  fun i => ∑ j : Fin 3, m i j * v j

/-- One iteration of the backward sweep (`for node in self.order_up`):
read the node's load column from both load matrices, sum the already
computed flows of `children[node]`, and overwrite `S_flow[node]`. -/
def sweepStep (s : Solver) (p q : NpMat) (S : ℕ → PQ) (node : ℕ) :
    Option (ℕ → PQ) := do
  let idx ← s.node_map node
  let pcol ← p.col3 idx
  let qcol ← q.col3 idx
  let kids ← s.children node
  let ssum := kids.foldl (fun acc c => acc + S c) 0
  some (Function.update S node ((pcol, qcol) + ssum))

/-- The backward sweep: fold `sweepStep` over `order_up`, starting from
the all-zeros `S_flow` table. -/
def backward (s : Solver) (p q : NpMat) : Option (ℕ → PQ) :=
  s.order_up.foldlM (sweepStep s p q) (fun _ => 0)

/-- One iteration of the forward sweep (`for node in self.order_down`):
the root is skipped; otherwise look up the parent and the line's per-unit
impedances, build the coupling matrices, and set
`Y_child = Y_parent + mp @ pk + mq @ qk`. -/
def fwdStep (s : Solver) (root : ℕ) (S : ℕ → PQ) (Y : ℕ → Vec3) (node : ℕ) :
    Option (ℕ → Vec3) :=
  if node = root then some Y else do
    let parent ← s.parents node
    let rx ← s.line_params parent node
    let mpq ← calc_M_matrices rx.1 rx.2
    let pk := (S node).1
    let qk := (S node).2
    some (Function.update Y node
      (Y parent + mulVec3 mpq.1 pk + mulVec3 mpq.2 qk))

/-- The forward sweep: initialize `Y_node` to zeros, set the root entry to
the elementwise square of the root voltage, then fold `fwdStep` over
`order_down`. -/
def forward (s : Solver) (S : ℕ → PQ) (vroot : Vec3) : Option (ℕ → Vec3) := do
  let root ← s.nodes.head?
  let Y0 : ℕ → Vec3 := Function.update (fun _ => 0) root (fun i => vroot i ^ 2)
  s.order_down.foldlM (fwdStep s root S) Y0

/-- Write the 3-vector `c` into column `j₀` of the result matrix. -/
def setCol (v : Fin 3 → ℕ → ℝ) (j₀ : ℕ) (c : Vec3) : Fin 3 → ℕ → ℝ :=
  fun i j => if j = j₀ then c i else v i j

/-- Voltage recovery: start from `np.zeros((3, n_nodes))` and, for every
node in insertion order, write `sqrt(max(Y, 0))` into its column. -/
def recover (s : Solver) (Y : ℕ → Vec3) : Option (Fin 3 → ℕ → ℝ) :=
  s.nodes.foldlM
    (fun v n => do
      let idx ← s.node_map n
      some (setCol v idx (fun i => Real.sqrt (max (Y n i) 0))))
    (fun _ _ => 0)

/-- `LinDist3FlowSolver.solve`: resolve the default root voltage, then run
backward sweep, forward sweep and voltage recovery. -/
def solve (s : Solver) (p q : NpMat) (vroot? : Option Vec3) :
    Option (Fin 3 → ℕ → ℝ) := do
  let vroot := vroot?.getD (fun _ => 1)
  let S ← backward s p q
  let Y ← forward s S vroot
  recover s Y

/-- `solve` in state-passing form: the Python method reads but never
writes the fields of `self` (all per-call state lives in local
dictionaries), so the post-call solver state is the pre-call one. -/
def solveS (s : Solver) (p q : NpMat) (vroot? : Option Vec3) :
    (Option (Fin 3 → ℕ → ℝ)) × Solver :=
  (solve s p q vroot?, s)

/-- Construct a solver and immediately solve, as `main.py` does. -/
def constructAndSolve (nodes : List ℕ) (lines : List Line)
    (v_base_kv s_base_mva : ℝ) (p q : NpMat) (vroot? : Option Vec3) :
    Option (Fin 3 → ℕ → ℝ) :=
  (init nodes lines v_base_kv s_base_mva).bind fun s => solve s p q vroot?

/-! ### Evaluation lemmas for the numpy layer -/

lemma read3x3_of_le (m : NpMat) (hr : 3 ≤ m.rows) (hc : 3 ≤ m.cols) :
    m.read3x3 = some (fun i j : Fin 3 => m.entry i.val j.val) := by
  have r0 : (0 : ℕ) < m.rows := by omega
  have r1 : (1 : ℕ) < m.rows := by omega
  have r2 : (2 : ℕ) < m.rows := by omega
  have c0 : (0 : ℕ) < m.cols := by omega
  have c1 : (1 : ℕ) < m.cols := by omega
  have c2 : (2 : ℕ) < m.cols := by omega
  simp only [NpMat.read3x3, NpMat.read, r0, r1, r2, c0, c1, c2, and_self,
    if_true, Option.bind_eq_bind, Option.some_bind]
  congr 1
  funext i j
  fin_cases i <;> fin_cases j <;> simp

lemma col3_of (m : NpMat) (j : ℕ) (hj : j < m.cols) (h3 : m.rows = 3) :
    m.col3 j = some (fun i : Fin 3 => m.entry i.val j) := by
  simp [NpMat.col3, hj, h3]

@[simp] lemma divScalar_rows (m : NpMat) (c : ℝ) : (m.divScalar c).rows = m.rows := rfl

@[simp] lemma divScalar_cols (m : NpMat) (c : ℝ) : (m.divScalar c).cols = m.cols := rfl

@[simp] lemma divScalar_entry (m : NpMat) (c : ℝ) (i j : ℕ) :
    (m.divScalar c).entry i j = m.entry i j / c := rfl

lemma solve_eq (s : Solver) (p q : NpMat) (vroot? : Option Vec3) :
    solve s p q vroot? =
      (backward s p q).bind fun S =>
        (forward s S (vroot?.getD fun _ => 1)).bind fun Y => recover s Y := rfl

/-! ### Generic fold lemmas -/

lemma foldl_add_eq_sum {α M : Type _} [AddCommMonoid M] (S : α → M) (l : List α) :
    l.foldl (fun acc c => acc + S c) 0 = (l.map S).sum := by
  rw [← List.foldl_map, List.sum_eq_foldl]

lemma foldlM_invariant {α β : Type _} (f : β → α → Option β) (P : β → Prop)
    (hstep : ∀ b a b', f b a = some b' → P b → P b') :
    ∀ (l : List α) (b b' : β), l.foldlM f b = some b' → P b → P b' := by
  intro l
  induction l with
  | nil => intro b b' h hb; simp only [List.foldlM_nil] at h; cases h; exact hb
  | cons a t ih =>
    intro b b' h hb
    simp only [List.foldlM_cons] at h
    cases hfa : f b a with
    | none => rw [hfa] at h; simp at h
    | some b₁ =>
      rw [hfa] at h
      simp only [Option.bind_eq_bind, Option.some_bind] at h
      exact ih b₁ b' h (hstep b a b₁ hfa hb)

/-! ### The node-index dictionary -/

lemma enumFold_not_mem (l : List ℕ) (n : ℕ) (hn : n ∉ l) :
    ∀ (k : ℕ) (f : ℕ → Option ℕ),
      ((List.enumFrom k l).foldl nmStep f) n = f n := by
  induction l with
  | nil => intro k f; rfl
  | cons a t ih =>
    intro k f
    have hna : n ≠ a := fun h => hn (h ▸ List.mem_cons_self a t)
    have hnt : n ∉ t := fun h => hn (List.mem_cons_of_mem a h)
    simp only [List.enumFrom, List.foldl_cons]
    rw [ih hnt]
    exact Function.update_noteq hna _ f

lemma enumFold_get (l : List ℕ) (hnd : l.Nodup) :
    ∀ (i : ℕ) (hi : i < l.length) (k : ℕ) (f : ℕ → Option ℕ),
      ((List.enumFrom k l).foldl nmStep f) (l.get ⟨i, hi⟩) = some (k + i) := by
  induction l with
  | nil => intro i hi; simp at hi
  | cons a t ih =>
    intro i hi k f
    rcases List.nodup_cons.mp hnd with ⟨hat, hndt⟩
    match i with
    | 0 =>
      simp only [List.enumFrom, List.foldl_cons, List.get]
      rw [enumFold_not_mem t a hat]
      simp [nmStep]
    | i + 1 =>
      simp only [List.enumFrom, List.foldl_cons, List.get]
      rw [ih hndt i (by simpa using Nat.lt_of_succ_lt_succ hi) (k + 1)
        (nmStep f (k, a))]
      congr 1
      omega

/-- On a duplicate-free node list the dictionary sends the node at
position `i` to `i`. -/
lemma mkNodeMap_get (nodes : List ℕ) (hnd : nodes.Nodup)
    (i : ℕ) (hi : i < nodes.length) :
    mkNodeMap nodes (nodes.get ⟨i, hi⟩) = some i := by
  have := enumFold_get nodes hnd i hi 0 (fun _ => none)
  simpa [mkNodeMap, List.enum] using this

/-- Fields of a successfully constructed solver that are written directly
from the constructor arguments. -/
lemma init_fields {nodes : List ℕ} {lines : List Line} {vb sb : ℝ} {s : Solver}
    (h : init nodes lines vb sb = some s) :
    s.nodes = nodes ∧ s.node_map = mkNodeMap nodes ∧ s.n_nodes = nodes.length := by
  simp only [init, Option.bind_eq_bind, Option.bind_eq_some] at h
  obtain ⟨st, _, root, _, order, _, hs⟩ := h
  cases hs
  exact ⟨rfl, rfl, rfl⟩

/-! ### Forward sweep: the root's squared voltage is never overwritten -/

lemma forward_preserves_root {s : Solver} {S : ℕ → PQ} {vroot : Vec3} {root : ℕ}
    (hroot : s.nodes.head? = some root) {Y : ℕ → Vec3}
    (hf : forward s S vroot = some Y) :
    Y root = fun i => vroot i ^ 2 := by
  simp only [forward, hroot, Option.bind_eq_bind, Option.some_bind] at hf
  have inv := foldlM_invariant (fwdStep s root S)
    (fun Y => Y root = fun i => vroot i ^ 2) ?_ s.order_down _ Y hf ?_
  · exact inv
  · intro b a b' hb hP
    by_cases ha : a = root
    · simp only [fwdStep, ha, if_true] at hb
      cases hb; exact hP
    · simp only [fwdStep, ha, if_false, Option.bind_eq_bind, Option.bind_eq_some] at hb
      obtain ⟨parent, _, rx, _, mpq, _, hb'⟩ := hb
      cases hb'
      rw [Function.update_noteq (by exact fun hc => ha hc.symm) _ b]
      · exact hP
  · exact Function.update_same root _ _

/-! ### Voltage recovery -/

/-- The body of the recovery loop, named so the fold can be analyzed. -/
lemma recover_def (s : Solver) (Y : ℕ → Vec3) :
    recover s Y =
      s.nodes.foldlM
        (fun v n => (s.node_map n).bind fun idx =>
          some (setCol v idx (fun i => Real.sqrt (max (Y n i) 0))))
        (fun _ _ => 0) := rfl

lemma recover_aux (Y : ℕ → Vec3) (map : ℕ → Option ℕ) :
    ∀ (l : List ℕ) (k : ℕ) (v0 : Fin 3 → ℕ → ℝ),
      (∀ p (hp : p < l.length), map (l.get ⟨p, hp⟩) = some (k + p)) →
      ∃ V, l.foldlM
            (fun v n => (map n).bind fun idx =>
              some (setCol v idx (fun i => Real.sqrt (max (Y n i) 0))))
            v0 = some V ∧
        (∀ j, (j < k ∨ k + l.length ≤ j) → ∀ i, V i j = v0 i j) ∧
        (∀ p (hp : p < l.length) i,
          V i (k + p) = Real.sqrt (max (Y (l.get ⟨p, hp⟩) i) 0)) := by
  intro l
  induction l with
  | nil =>
    intro k v0 _
    exact ⟨v0, rfl, fun j _ i => rfl, fun p hp => by simp at hp⟩
  | cons n t ih =>
    intro k v0 hmap
    have hn : map n = some k := by simpa using hmap 0 (by simp)
    have hmt : ∀ p (hp : p < t.length), map (t.get ⟨p, hp⟩) = some (k + 1 + p) := by
      intro p hp
      have := hmap (p + 1) (by simpa using Nat.succ_lt_succ hp)
      simpa [Nat.add_assoc, Nat.add_comm 1 p] using this
    obtain ⟨V, hV, hframe, hvals⟩ :=
      ih (k + 1) (setCol v0 k (fun i => Real.sqrt (max (Y n i) 0))) hmt
    refine ⟨V, ?_, ?_, ?_⟩
    · simp only [List.foldlM_cons, hn, Option.bind_eq_bind, Option.some_bind]
      exact hV
    · intro j hj i
      have hj' : j < k + 1 ∨ k + 1 + t.length ≤ j := by
        rcases hj with hj | hj
        · exact Or.inl (by omega)
        · exact Or.inr (by simp only [List.length_cons] at hj; omega)
      have hjk : j ≠ k := by
        rcases hj with hj | hj
        · omega
        · simp only [List.length_cons] at hj; omega
      rw [hframe j hj' i]
      simp [setCol, hjk]
    · intro p hp i
      match p with
      | 0 =>
        have hfr : k + 0 < k + 1 ∨ k + 1 + t.length ≤ k + 0 := Or.inl (by omega)
        rw [hframe (k + 0) hfr i]
        simp [setCol]
      | p + 1 =>
        have hp' : p < t.length := by simpa using Nat.lt_of_succ_lt_succ hp
        have := hvals p hp' i
        simpa [Nat.add_assoc, Nat.add_comm 1 p] using this

/-- Voltage recovery on a duplicate-free node list: it always succeeds,
and column `k` of the result holds the clamped square root of the squared
voltage of the node at position `k`. -/
lemma recover_ok {s : Solver} {nodes : List ℕ}
    (hn : s.nodes = nodes) (hm : s.node_map = mkNodeMap nodes)
    (hnd : nodes.Nodup) (Y : ℕ → Vec3) :
    ∃ V, recover s Y = some V ∧
      ∀ k (hk : k < nodes.length) i,
        V i k = Real.sqrt (max (Y (nodes.get ⟨k, hk⟩) i) 0) := by
  have hmap : ∀ p (hp : p < nodes.length),
      s.node_map (nodes.get ⟨p, hp⟩) = some (0 + p) := by
    intro p hp
    rw [hm, mkNodeMap_get nodes hnd p hp, Nat.zero_add]
  obtain ⟨V, hV, _, hvals⟩ := recover_aux Y s.node_map nodes 0 (fun _ _ => 0) hmap
  refine ⟨V, ?_, ?_⟩
  · rw [recover_def, hn]
    exact hV
  · intro k hk i
    have := hvals k hk i
    simpa using this

/-! ### Backward sweep -/

/-- What the constructor's BFS guarantees on a radial (tree) input:
`order_up` visits each node once, every lookup the backward sweep
performs on it succeeds, and every child occurs strictly before its
parent (`order_up` is leaf-to-root).  The functions `ch`, `idx`, `pc`,
`qc` name the looked-up children lists, node indices and load columns. -/
def ValidUp (s : Solver) (ch : ℕ → List ℕ) (idx : ℕ → ℕ)
    (p q : NpMat) (pc qc : ℕ → Vec3) : Prop :=
  s.order_up.Nodup ∧
  (∀ n ∈ s.order_up, s.children n = some (ch n)) ∧
  (∀ n ∈ s.order_up, s.node_map n = some (idx n)) ∧
  (∀ n ∈ s.order_up, p.col3 (idx n) = some (pc n)) ∧
  (∀ n ∈ s.order_up, q.col3 (idx n) = some (qc n)) ∧
  (∀ d m rest, s.order_up = d ++ m :: rest → ∀ c ∈ ch m, c ∈ d)

lemma backward_aux {s : Solver} {ch : ℕ → List ℕ} {idx : ℕ → ℕ}
    {p q : NpMat} {pc qc : ℕ → Vec3} (h : ValidUp s ch idx p q pc qc) :
    ∀ (todo done : List ℕ) (S0 : ℕ → PQ),
      s.order_up = done ++ todo →
      (∀ n ∈ done, S0 n = (pc n, qc n) + ((ch n).map S0).sum) →
      ∃ S, todo.foldlM (sweepStep s p q) S0 = some S ∧
        (∀ n, n ∉ todo → S n = S0 n) ∧
        (∀ n ∈ done ++ todo, S n = (pc n, qc n) + ((ch n).map S).sum) := by
  obtain ⟨hnd, hch, hmap, hp, hq, hbefore⟩ := h
  intro todo
  induction todo with
  | nil =>
    intro done S0 heq hdone
    exact ⟨S0, rfl, fun n _ => rfl, by simpa using hdone⟩
  | cons m rest ih =>
    intro done S0 heq hdone
    have hmem : m ∈ s.order_up := by
      rw [heq]; exact List.mem_append_right _ (List.mem_cons_self m rest)
    have hmdone : m ∉ done := by
      have hnd' : (done ++ m :: rest).Nodup := heq ▸ hnd
      obtain ⟨-, -, hdisj⟩ := List.nodup_append.mp hnd'
      exact fun hmem' => hdisj hmem' (List.mem_cons_self m rest)
    have hsub : ∀ c ∈ ch m, c ∈ done := hbefore done m rest heq
    have hstep : sweepStep s p q S0 m =
        some (Function.update S0 m
          ((pc m, qc m) + ((ch m).foldl (fun acc c => acc + S0 c) 0))) := by
      simp only [sweepStep, hmap m hmem, hp m hmem, hq m hmem, hch m hmem,
        Option.bind_eq_bind, Option.some_bind]
    set S1 : ℕ → PQ := Function.update S0 m
      ((pc m, qc m) + ((ch m).foldl (fun acc c => acc + S0 c) 0)) with hS1
    have hdone' : ∀ n ∈ done ++ [m], S1 n = (pc n, qc n) + ((ch n).map S1).sum := by
      intro n hn
      rcases List.mem_append.mp hn with hn' | hnm
      · have hne : n ≠ m := fun hc => hmdone (hc ▸ hn')
        have hmapeq : (ch n).map S1 = (ch n).map S0 := by
          refine List.map_congr_left ?_
          intro c hc
          obtain ⟨d1, d2, hdec⟩ := List.append_of_mem hn'
          have heq' : s.order_up = d1 ++ n :: (d2 ++ m :: rest) := by
            rw [heq, hdec]; simp
          have hc1 : c ∈ d1 := hbefore d1 n (d2 ++ m :: rest) heq' c hc
          have hcd : c ∈ done := by rw [hdec]; exact List.mem_append_left _ hc1
          have hcm : c ≠ m := fun hcc => hmdone (hcc ▸ hcd)
          exact Function.update_noteq hcm _ S0
        rw [hS1, Function.update_noteq hne _ S0, hmapeq]
        exact hdone n hn'
      · have hnm : n = m := by simpa using hnm
        subst hnm
        have hmapeq : (ch n).map S1 = (ch n).map S0 := by
          refine List.map_congr_left ?_
          intro c hc
          have hcm : c ≠ n := fun hcc => hmdone (hcc ▸ hsub c hc)
          exact Function.update_noteq hcm _ S0
        rw [hS1, Function.update_same, hmapeq, foldl_add_eq_sum]
    have heq' : s.order_up = (done ++ [m]) ++ rest := by
      rw [heq]; simp
    obtain ⟨S, hfold, hframe, hinv⟩ := ih (done ++ [m]) S1 heq' hdone'
    refine ⟨S, ?_, ?_, ?_⟩
    · simp only [List.foldlM_cons, hstep, Option.bind_eq_bind, Option.some_bind]
      exact hfold
    · intro n hn
      have hnm : n ≠ m := fun hc => hn (hc ▸ List.mem_cons_self m rest)
      have hnr : n ∉ rest := fun hc => hn (List.mem_cons_of_mem m hc)
      rw [hframe n hnr, hS1, Function.update_noteq hnm _ S0]
    · intro n hn
      refine hinv n ?_
      simp only [List.mem_append, List.mem_cons, List.mem_singleton] at hn ⊢
      tauto

/-- The backward sweep succeeds on a valid leaf-to-root order and
computes, at every visited node, the node's own load column plus the sum
of the already-final flows of its children. -/
lemma backward_ok {s : Solver} {ch : ℕ → List ℕ} {idx : ℕ → ℕ}
    {p q : NpMat} {pc qc : ℕ → Vec3} (h : ValidUp s ch idx p q pc qc) :
    ∃ S, backward s p q = some S ∧
      ∀ n ∈ s.order_up, S n = (pc n, qc n) + ((ch n).map S).sum := by
  obtain ⟨S, hf, _, hinv⟩ := backward_aux h s.order_up [] (fun _ => 0) rfl (by simp)
  exact ⟨S, hf, by simpa using hinv⟩

/-- Any two flow tables satisfying the backward-sweep equations for two
sibling-permuted children relations agree everywhere on the order: the
aggregated flow is independent of the sibling visitation order. -/
lemma backward_unique {ch ch₂ : ℕ → List ℕ} {pc qc : ℕ → Vec3} {order : List ℕ}
    (hbefore : ∀ d m rest, order = d ++ m :: rest → ∀ c ∈ ch m, c ∈ d)
    {S S₂ : ℕ → PQ}
    (hS : ∀ n ∈ order, S n = (pc n, qc n) + ((ch n).map S).sum)
    (hS₂ : ∀ n ∈ order, S₂ n = (pc n, qc n) + ((ch₂ n).map S₂).sum)
    (hperm : ∀ n ∈ order, (ch₂ n).Perm (ch n)) :
    ∀ n ∈ order, S n = S₂ n := by
  have aux : ∀ d, (∀ t, order = d ++ t → ∀ n ∈ d, S n = S₂ n) := by
    intro d
    induction d using List.reverseRecOn with
    | nil => intro t _ n hn; simp at hn
    | append_singleton d' m ih =>
      intro t heq n hn
      have heq' : order = d' ++ (m :: t) := by rw [heq]; simp
      rcases List.mem_append.mp hn with hn' | hnm
      · exact ih (m :: t) heq' n hn'
      · have hnm : n = m := by simpa using hnm
        subst hnm
        have hmem : n ∈ order := by
          rw [heq']; exact List.mem_append_right _ (List.mem_cons_self n t)
        have hsub : ∀ c ∈ ch n, c ∈ d' := hbefore d' n t heq'
        have hmapeq : (ch n).map S = (ch n).map S₂ :=
          List.map_congr_left fun c hc => ih (n :: t) heq' c (hsub c hc)
        have hpermsum : ((ch₂ n).map S₂).sum = ((ch n).map S₂).sum :=
          ((hperm n hmem).map S₂).sum_eq
        rw [hS n hmem, hS₂ n hmem, hpermsum, hmapeq]
  intro n hn
  obtain ⟨d, t, hdec⟩ := List.append_of_mem hn
  exact aux (d ++ [n]) t (by rw [hdec]; simp) n (by simp)



/-- The per-unit impedance base computed by the constructor. -/
def pubase (vb sb : ℝ) : ℝ := (vb * 1000) ^ 2 / (sb * 1000000)

/-- The solver the constructor builds for a two-node network `a -> b`. -/
def twoSolver (a b : ℕ) (r x : NpMat) (vb sb : ℝ) : Solver where
  nodes := [a, b]
  n_nodes := 2
  node_map := mkNodeMap [a, b]
  v_base := vb * 1000
  s_base := sb * 1000000
  z_base := pubase vb sb
  children := fun n => if n = a then some [b] else if n = b then some [] else none
  parents := fun n => if n = b then some a else none
  line_params := fun u v =>
    if u = a ∧ v = b
    then some (r.divScalar (pubase vb sb), x.divScalar (pubase vb sb))
    else none
  order_down := [a, b]
  order_up := [b, a]

lemma bfs_two (ch : ℕ → Option (List ℕ)) (a b : ℕ)
    (ha : ch a = some [b]) (hb : ch b = some []) (f : ℕ) (hf : 2 ≤ f) :
    bfs ch f [a] [] = some [a, b] := by
  obtain ⟨k, rfl⟩ : ∃ k, f = k + 1 + 1 := ⟨f - 2, by omega⟩
  simp [bfs, ha, hb]

lemma init_two (a b : ℕ) (hab : a ≠ b) (r x : NpMat) (vb sb : ℝ) :
    init [a, b] [⟨a, b, r, x⟩] vb sb = some (twoSolver a b r x vb sb) := by
  have hba : b ≠ a := hab.symm
  simp only [init, List.foldlM_cons, List.foldlM_nil, addLine,
    Option.bind_eq_bind, Option.some_bind, List.head?]
  rw [if_pos (show a ∈ [a, b] by simp)]
  simp only [Option.some_bind, Option.pure_def, List.nil_append]
  rw [bfs_two _ a b (by simp) (by simp [Function.update, hba]) _ (by simp)]
  simp only [Option.some_bind]
  refine congrArg some ?_
  rw [twoSolver, Solver.mk.injEq]
  refine ⟨rfl, by simp, rfl, rfl, rfl, rfl, ?_, ?_, rfl, rfl, by simp⟩
  · funext n
    by_cases hna : n = a
    · subst hna; simp [Function.update]
    · by_cases hnb : n = b
      · subst hnb; simp [Function.update, hba, hab]
      · simp [Function.update, hna, hnb]
  · funext n
    by_cases hnb : n = b
    · subst hnb; simp [Function.update]
    · simp [Function.update, hnb]



lemma backward_two (a b : ℕ) (hab : a ≠ b) (r x : NpMat) (vb sb : ℝ)
    (p q : NpMat) (pc0 pc1 qc0 qc1 : Vec3)
    (hp0 : p.col3 0 = some pc0) (hp1 : p.col3 1 = some pc1)
    (hq0 : q.col3 0 = some qc0) (hq1 : q.col3 1 = some qc1) :
    ∃ S, backward (twoSolver a b r x vb sb) p q = some S ∧
      S a = (pc0 + pc1, qc0 + qc1) ∧ S b = (pc1, qc1) := by
  have hba : b ≠ a := hab.symm
  have hmb : mkNodeMap [a, b] b = some 1 := by
    simp [mkNodeMap, nmStep, List.enum, List.enumFrom, Function.update]
  have hma : mkNodeMap [a, b] a = some 0 := by
    simp [mkNodeMap, nmStep, List.enum, List.enumFrom, Function.update, hab]
  set S1 : ℕ → PQ := Function.update (fun _ => 0) b ((pc1, qc1) + 0) with hS1def
  set S2 : ℕ → PQ :=
    Function.update S1 a ((pc0, qc0) + [b].foldl (fun acc c => acc + S1 c) 0) with hS2def
  have h1 : sweepStep (twoSolver a b r x vb sb) p q (fun _ => 0) b = some S1 := by
    simp only [sweepStep, twoSolver, hmb, hp1, hq1, hba, if_neg, if_pos,
      Option.bind_eq_bind, Option.some_bind, ite_true, ite_false]
    simp [hba, hS1def]
  have h2 : sweepStep (twoSolver a b r x vb sb) p q S1 a = some S2 := by
    simp only [sweepStep, twoSolver, hma, hp0, hq0,
      Option.bind_eq_bind, Option.some_bind]
    simp [hS2def]
  refine ⟨S2, ?_, ?_, ?_⟩
  · show ([b, a].foldlM (sweepStep (twoSolver a b r x vb sb) p q) fun _ => 0) = some S2
    simp only [List.foldlM_cons, List.foldlM_nil, h1,
      Option.bind_eq_bind, Option.some_bind, h2]
    rfl
  · rw [hS2def, Function.update_same]
    have : S1 b = (pc1, qc1) + 0 := by rw [hS1def, Function.update_same]
    simp [this, Prod.mk_add_mk]
  · rw [hS2def, Function.update_noteq hba _ S1, hS1def, Function.update_same, add_zero]

lemma forward_two (a b : ℕ) (hab : a ≠ b) (r x : NpMat) (vb sb : ℝ)
    (hr1 : 3 ≤ r.rows) (hr2 : 3 ≤ r.cols) (hx1 : 3 ≤ x.rows) (hx2 : 3 ≤ x.cols)
    (S : ℕ → PQ) (vroot : Vec3) :
    ∃ Y, forward (twoSolver a b r x vb sb) S vroot = some Y ∧
      Y a = (fun i => vroot i ^ 2) ∧
      Y b = (fun i => vroot i ^ 2) +
        mulVec3 (calc_MP (fun i j => r.entry i.val j.val / pubase vb sb)
                         (fun i j => x.entry i.val j.val / pubase vb sb)) (S b).1 +
        mulVec3 (calc_MQ (fun i j => r.entry i.val j.val / pubase vb sb)
                         (fun i j => x.entry i.val j.val / pubase vb sb)) (S b).2 := by
  have hba : b ≠ a := hab.symm
  have hcm : calc_M_matrices (r.divScalar (pubase vb sb)) (x.divScalar (pubase vb sb)) =
      some (calc_MP (fun i j => r.entry i.val j.val / pubase vb sb)
              (fun i j => x.entry i.val j.val / pubase vb sb),
            calc_MQ (fun i j => r.entry i.val j.val / pubase vb sb)
              (fun i j => x.entry i.val j.val / pubase vb sb)) := by
    rw [calc_M_matrices, read3x3_of_le _ (by simpa using hr1) (by simpa using hr2),
      read3x3_of_le _ (by simpa using hx1) (by simpa using hx2)]
    simp
  set Y0 : ℕ → Vec3 := Function.update (fun _ => 0) a (fun i => vroot i ^ 2) with hY0
  have hstep_a : fwdStep (twoSolver a b r x vb sb) a S Y0 a = some Y0 := by
    simp [fwdStep]
  set Y1 : ℕ → Vec3 := Function.update Y0 b
    (Y0 a + mulVec3 (calc_MP (fun i j => r.entry i.val j.val / pubase vb sb)
                       (fun i j => x.entry i.val j.val / pubase vb sb)) (S b).1
          + mulVec3 (calc_MQ (fun i j => r.entry i.val j.val / pubase vb sb)
                       (fun i j => x.entry i.val j.val / pubase vb sb)) (S b).2) with hY1
  have hstep_b : fwdStep (twoSolver a b r x vb sb) a S Y0 b = some Y1 := by
    simp only [fwdStep, hba, if_neg, ite_false, twoSolver,
      Option.bind_eq_bind, Option.some_bind]
    simp only [hba, ite_false, ite_true, and_self, if_pos, hcm,
      Option.bind_eq_bind, Option.some_bind]
  refine ⟨Y1, ?_, ?_, ?_⟩
  · show ([a, b].foldlM (fwdStep (twoSolver a b r x vb sb) a S) Y0) = some Y1
    simp only [List.foldlM_cons, List.foldlM_nil, hstep_a, hstep_b,
      Option.bind_eq_bind, Option.some_bind]
    rfl
  · rw [hY1, Function.update_noteq hab _ Y0, hY0, Function.update_same]
  · rw [hY1, Function.update_same, hY0, Function.update_same]

lemma recover_two (a b : ℕ) (hab : a ≠ b) (r x : NpMat) (vb sb : ℝ) (Y : ℕ → Vec3) :
    ∃ V, recover (twoSolver a b r x vb sb) Y = some V ∧
      (∀ i, V i 0 = Real.sqrt (max (Y a i) 0)) ∧
      (∀ i, V i 1 = Real.sqrt (max (Y b i) 0)) := by
  obtain ⟨V, hV, hvals⟩ :=
    @recover_ok (twoSolver a b r x vb sb) [a, b] rfl rfl
      (by simp [hab]) Y
  refine ⟨V, hV, fun i => ?_, fun i => ?_⟩
  · simpa using hvals 0 (by simp) i
  · simpa using hvals 1 (by simp) i

end LinDist3Flow

namespace LinDist3Flow

/-! ### Small algebraic helpers -/

lemma mulVec3_zero (m : Mat3) : mulVec3 m 0 = 0 := by
  funext i
  simp [mulVec3]

lemma sqrt_max_sq (v : ℝ) (hv : 0 ≤ v) : Real.sqrt (max (v ^ 2) 0) = v := by
  rw [max_eq_left (sq_nonneg v), Real.sqrt_sq hv]

lemma calc_MP_diag (r x : Mat3) (i : Fin 3) : calc_MP r x i i = -2 * r i i := by
  fin_cases i <;> simp [calc_MP]

lemma calc_MQ_diag (r x : Mat3) (i : Fin 3) : calc_MQ r x i i = -2 * x i i := by
  fin_cases i <;> simp [calc_MQ]

lemma calc_MP_offdiag_zero (r x : Mat3)
    (hr : ∀ i j, i ≠ j → r i j = 0) (hx : ∀ i j, i ≠ j → x i j = 0)
    (i j : Fin 3) (hij : i ≠ j) : calc_MP r x i j = 0 := by
  fin_cases i <;> fin_cases j <;>
    simp_all [calc_MP, Matrix.vecHead, Matrix.vecTail]

lemma calc_MQ_offdiag_zero (r x : Mat3)
    (hr : ∀ i j, i ≠ j → r i j = 0) (hx : ∀ i j, i ≠ j → x i j = 0)
    (i j : Fin 3) (hij : i ≠ j) : calc_MQ r x i j = 0 := by
  fin_cases i <;> fin_cases j <;>
    simp_all [calc_MQ, Matrix.vecHead, Matrix.vecTail]

/-! ### Concrete example inputs (the literal inputs of the spec) -/

/-- `R = diag(0.3, 0.3, 0.3)` ohms. -/
def rEx : NpMat := ⟨3, 3, fun i j => if i = j then 0.3 else 0⟩

/-- `X = diag(0.1, 0.1, 0.1)` ohms. -/
def xEx : NpMat := ⟨3, 3, fun i j => if i = j then 0.1 else 0⟩

/-- An all-zero 3 x 2 load matrix. -/
def zeroLoad2 : NpMat := ⟨3, 2, fun _ _ => 0⟩

/-! ### C1 -/

/-- C1, counterexample: a line whose from-bus `1` is not in the node list
`[0]` does *not* get silently dropped — `children[1].append(0)` raises a
`KeyError` and construction fails. -/
theorem C1_counterexample :
    init [0] [⟨1, 0, ⟨3, 3, fun _ _ => 0⟩, ⟨3, 3, fun _ _ => 0⟩⟩] 4.16 1 = none := by
  simp [init, addLine, List.foldlM_cons]

/-- C1, amended: a line record whose from-bus identity is absent from the
supplied node list makes the constructor raise a `KeyError` (modeled as
`none`): the line is not dropped and no solver is built. -/
theorem C1_amended (nodes : List ℕ) (lines : List Line) (vb sb : ℝ)
    (h : ∃ l ∈ lines, l.frm ∉ nodes) :
    init nodes lines vb sb = none := by
  have key : ∀ (zb : ℝ) (ls : List Line)
      (st : (ℕ → Option (List ℕ)) × (ℕ → Option ℕ) × (ℕ → ℕ → Option (NpMat × NpMat))),
      (∀ n, (st.1 n).isSome ↔ n ∈ nodes) → (∃ l ∈ ls, l.frm ∉ nodes) →
      ls.foldlM (addLine zb) st = none := by
    intro zb ls
    induction ls with
    | nil => intro st _ hex; simp at hex
    | cons l t ih =>
      intro st hinv hex
      by_cases hl : l.frm ∈ nodes
      · obtain ⟨chl, hchl⟩ := Option.isSome_iff_exists.mp ((hinv l.frm).mpr hl)
        have hstep : addLine zb st l =
            some (Function.update st.1 l.frm (some (chl ++ [l.tgt])),
              Function.update st.2.1 l.tgt (some l.frm),
              fun u v =>
                if u = l.frm ∧ v = l.tgt
                then some (l.r_matrix.divScalar zb, l.x_matrix.divScalar zb)
                else st.2.2 u v) := by
          simp [addLine, hchl]
        have hex' : ∃ l' ∈ t, l'.frm ∉ nodes := by
          obtain ⟨l', hl', hfrm⟩ := hex
          rcases List.mem_cons.mp hl' with rfl | hl't
          · exact absurd hl hfrm
          · exact ⟨l', hl't, hfrm⟩
        have hinv' : ∀ n,
            ((Function.update st.1 l.frm (some (chl ++ [l.tgt]))) n).isSome ↔ n ∈ nodes := by
          intro n
          by_cases hn : n = l.frm
          · subst hn; simp [Function.update, hl]
          · rw [Function.update_noteq hn _ st.1]; exact hinv n
        simp only [List.foldlM_cons, hstep, Option.bind_eq_bind, Option.some_bind]
        exact ih _ hinv' hex'
      · have hnone : st.1 l.frm = none := by
          rcases hs : st.1 l.frm with _ | v
          · rfl
          · exact absurd ((hinv l.frm).mp (by simp [hs])) hl
        simp [List.foldlM_cons, addLine, hnone]
  simp only [init, Option.bind_eq_bind]
  rw [key _ lines _ (fun n => by by_cases hn : n ∈ nodes <;> simp [hn]) h]
  rfl

/-- C1, witness for the amended claim at a concrete input. -/
theorem C1_amended_witness :
    init [0, 1] [⟨5, 1, ⟨3, 3, fun _ _ => 0⟩, ⟨3, 3, fun _ _ => 0⟩⟩] 4.16 1 = none :=
  C1_amended [0, 1] [⟨5, 1, ⟨3, 3, fun _ _ => 0⟩, ⟨3, 3, fun _ _ => 0⟩⟩] 4.16 1
    ⟨⟨5, 1, ⟨3, 3, fun _ _ => 0⟩, ⟨3, 3, fun _ _ => 0⟩⟩, by simp, by simp⟩

/-! ### C2 -/

/-- C2: on 3x3 per-unit matrices the coupling model returns exactly the
closed-form table: diagonals `-2 R[i,i]` / `-2 X[i,i]`, off-diagonals the
fixed sqrt(3) sign pattern, `M_Q` with `R`/`X` swapped and flipped signs. -/
theorem C2_coupling_table (r x : NpMat)
    (hr1 : r.rows = 3) (hr2 : r.cols = 3) (hx1 : x.rows = 3) (hx2 : x.cols = 3) :
    calc_M_matrices r x =
      some
        (![![-2 * r.entry 0 0, r.entry 0 1 - Real.sqrt 3 * x.entry 0 1,
             r.entry 0 2 + Real.sqrt 3 * x.entry 0 2],
           ![r.entry 1 0 + Real.sqrt 3 * x.entry 1 0, -2 * r.entry 1 1,
             r.entry 1 2 - Real.sqrt 3 * x.entry 1 2],
           ![r.entry 2 0 - Real.sqrt 3 * x.entry 2 0,
             r.entry 2 1 + Real.sqrt 3 * x.entry 2 1, -2 * r.entry 2 2]],
         ![![-2 * x.entry 0 0, x.entry 0 1 + Real.sqrt 3 * r.entry 0 1,
             x.entry 0 2 - Real.sqrt 3 * r.entry 0 2],
           ![x.entry 1 0 - Real.sqrt 3 * r.entry 1 0, -2 * x.entry 1 1,
             x.entry 1 2 + Real.sqrt 3 * r.entry 1 2],
           ![x.entry 2 0 + Real.sqrt 3 * r.entry 2 0,
             x.entry 2 1 - Real.sqrt 3 * r.entry 2 1, -2 * x.entry 2 2]]) := by
  rw [calc_M_matrices, read3x3_of_le _ (by omega) (by omega),
    read3x3_of_le _ (by omega) (by omega)]
  simp only [Option.bind_eq_bind, Option.some_bind]
  refine congrArg some (Prod.ext ?_ ?_) <;>
    · funext i j
      fin_cases i <;> fin_cases j <;> simp [calc_MP, calc_MQ, sqrt3]

/-- A 3x3 test matrix with pairwise distinct entries `2 i + j`. -/
def rWit : NpMat := ⟨3, 3, fun i j => 2 * (i : ℝ) + (j : ℝ)⟩

/-- A 3x3 test matrix with pairwise distinct entries `10 + i + 2 j`. -/
def xWit : NpMat := ⟨3, 3, fun i j => 10 + (i : ℝ) + 2 * (j : ℝ)⟩

/-- C2, witness: the table evaluated on concrete matrices. -/
theorem C2_coupling_table_witness :
    ∃ M : Mat3 × Mat3, calc_M_matrices rWit xWit = some M ∧
      M.1 0 0 = -0 ∧ M.1 0 1 = 1 - Real.sqrt 3 * 12 ∧
      M.2 0 1 = 12 + Real.sqrt 3 * 1 ∧ M.1 1 1 = -6 ∧ M.2 2 2 = -32 := by
  refine ⟨_, C2_coupling_table rWit xWit rfl rfl rfl rfl, ?_, ?_, ?_, ?_, ?_⟩ <;>
    norm_num [rWit, xWit]

/-! ### C9 -/

/-- C9: `solve` is stateless and deterministic — in state-passing form the
post-call solver state equals the pre-call state, a second call with the
same arguments returns the same result, and the result is the pure
function `solve` of the arguments. -/
theorem C9_stateless (s : Solver) (p q : NpMat) (vroot? : Option Vec3) :
    (solveS s p q vroot?).2 = s ∧
    (solveS ((solveS s p q vroot?).2) p q vroot?).1 = (solveS s p q vroot?).1 ∧
    (solveS s p q vroot?).1 = solve s p q vroot? :=
  ⟨rfl, rfl, rfl⟩

end LinDist3Flow

namespace LinDist3Flow

/-- Assemble `solve` from the three stages. -/
lemma solve_of_stages {s : Solver} {p q : NpMat} (vroot? : Option Vec3)
    {S : ℕ → PQ} {Y : ℕ → Vec3} {V : Fin 3 → ℕ → ℝ}
    (hb : backward s p q = some S)
    (hf : forward s S (vroot?.getD fun _ => 1) = some Y)
    (hrec : recover s Y = some V) :
    solve s p q vroot? = some V := by
  rw [solve_eq, hb]
  simp only [Option.bind_eq_bind, Option.some_bind]
  rw [hf]
  simp only [Option.some_bind]
  exact hrec

/-- Voltage recovery on the two-node solver, with the result in closed form. -/
lemma recover_two_explicit (a b : ℕ) (hab : a ≠ b) (r x : NpMat) (vb sb : ℝ)
    (Y : ℕ → Vec3) :
    recover (twoSolver a b r x vb sb) Y =
      some (setCol (setCol (fun _ _ => 0) 0 (fun i => Real.sqrt (max (Y a i) 0)))
        1 (fun i => Real.sqrt (max (Y b i) 0))) := by
  have hmb : mkNodeMap [a, b] b = some 1 := by
    simp [mkNodeMap, nmStep, List.enum, List.enumFrom, Function.update]
  have hma : mkNodeMap [a, b] a = some 0 := by
    simp [mkNodeMap, nmStep, List.enum, List.enumFrom, Function.update, hab]
  rw [recover_def]
  show ([a, b].foldlM _ _) = _
  simp only [List.foldlM_cons, List.foldlM_nil, twoSolver, hma, hmb,
    Option.bind_eq_bind, Option.some_bind]
  rfl

/-! ### C6 -/

/-- C6: on any two-node network with 3x3 impedance matrices and all-zero
loads, `solve` reproduces the (non-negative) root voltage on both nodes
and all three phases. -/
theorem C6_zero_load (a b : ℕ) (hab : a ≠ b) (r x : NpMat)
    (hr1 : r.rows = 3) (hr2 : r.cols = 3) (hx1 : x.rows = 3) (hx2 : x.cols = 3)
    (vb sb : ℝ) (p q : NpMat)
    (hpr : p.rows = 3) (hpc : p.cols = 2) (hqr : q.rows = 3) (hqc : q.cols = 2)
    (hpz : ∀ i j, p.entry i j = 0) (hqz : ∀ i j, q.entry i j = 0)
    (vroot? : Option Vec3) (vroot : Vec3)
    (hv : vroot?.getD (fun _ => 1) = vroot) (hpos : ∀ i, 0 ≤ vroot i) :
    ∃ V, constructAndSolve [a, b] [⟨a, b, r, x⟩] vb sb p q vroot? = some V ∧
      ∀ i, V i 0 = vroot i ∧ V i 1 = vroot i := by
  subst hv
  obtain ⟨S, hS, hSa, hSb⟩ := backward_two a b hab r x vb sb p q _ _ _ _
    (col3_of p 0 (by omega) hpr) (col3_of p 1 (by omega) hpr)
    (col3_of q 0 (by omega) hqr) (col3_of q 1 (by omega) hqr)
  obtain ⟨Y, hY, hYa, hYb⟩ := forward_two a b hab r x vb sb
    (by omega) (by omega) (by omega) (by omega) S (vroot?.getD fun _ => 1)
  have hSb1 : (S b).1 = 0 := by rw [hSb]; funext i; simp [hpz]
  have hSb2 : (S b).2 = 0 := by rw [hSb]; funext i; simp [hqz]
  have hYb' : Y b = fun i => (vroot?.getD fun _ => 1) i ^ 2 := by
    rw [hYb, hSb1, hSb2, mulVec3_zero, mulVec3_zero, add_zero, add_zero]
  refine ⟨setCol (setCol (fun _ _ => 0) 0 (fun i => Real.sqrt (max (Y a i) 0)))
      1 (fun i => Real.sqrt (max (Y b i) 0)), ?_, fun i => ⟨?_, ?_⟩⟩
  · rw [constructAndSolve, init_two a b hab r x vb sb]
    simp only [Option.bind_eq_bind, Option.some_bind]
    exact solve_of_stages vroot? hS hY (recover_two_explicit a b hab r x vb sb Y)
  · rw [show setCol (setCol (fun _ _ => 0) 0 (fun i => Real.sqrt (max (Y a i) 0)))
          1 (fun i => Real.sqrt (max (Y b i) 0)) i 0 =
        Real.sqrt (max (Y a i) 0) from by simp [setCol], hYa]
    exact sqrt_max_sq _ (hpos i)
  · rw [show setCol (setCol (fun _ _ => 0) 0 (fun i => Real.sqrt (max (Y a i) 0)))
          1 (fun i => Real.sqrt (max (Y b i) 0)) i 1 =
        Real.sqrt (max (Y b i) 0) from by simp [setCol], hYb']
    exact sqrt_max_sq _ (hpos i)

end LinDist3Flow

namespace LinDist3Flow

/-- C6, witness: the spec's literal two-node zero-load instance returns
exactly 1.0 on all phases at both nodes. -/
theorem C6_zero_load_witness :
    ∃ V, constructAndSolve [0, 1] [⟨0, 1, rEx, xEx⟩] 4.16 1 zeroLoad2 zeroLoad2 none
        = some V ∧ ∀ i, V i 0 = 1 ∧ V i 1 = 1 := by
  obtain ⟨V, hV, hvals⟩ := C6_zero_load 0 1 (by norm_num) rEx xEx rfl rfl rfl rfl
    4.16 1 zeroLoad2 zeroLoad2 rfl rfl rfl rfl (fun i j => rfl) (fun i j => rfl)
    none (fun _ => 1) rfl (fun i => by norm_num)
  exact ⟨V, hV, fun i => by simpa using hvals i⟩

/-- Forward sweep on a two-node line with diagonal impedance matrices:
each phase decouples, `Y_child = Y_root - 2 R P - 2 X Q` per phase. -/
lemma forward_two_diag (a b : ℕ) (hab : a ≠ b) (r x : NpMat) (vb sb : ℝ)
    (hr1 : r.rows = 3) (hr2 : r.cols = 3) (hx1 : x.rows = 3) (hx2 : x.cols = 3)
    (hrd : ∀ i j, i < 3 → j < 3 → i ≠ j → r.entry i j = 0)
    (hxd : ∀ i j, i < 3 → j < 3 → i ≠ j → x.entry i j = 0)
    (S : ℕ → PQ) (vroot : Vec3) :
    ∃ Y, forward (twoSolver a b r x vb sb) S vroot = some Y ∧
      Y a = (fun i => vroot i ^ 2) ∧
      ∀ i : Fin 3, Y b i = vroot i ^ 2
        - 2 * (r.entry i.val i.val / pubase vb sb) * (S b).1 i
        - 2 * (x.entry i.val i.val / pubase vb sb) * (S b).2 i := by
  obtain ⟨Y, hY, hYa, hYb⟩ := forward_two a b hab r x vb sb
    (by omega) (by omega) (by omega) (by omega) S vroot
  have hrd' : ∀ i j : Fin 3, i ≠ j →
      (fun i j : Fin 3 => r.entry i.val j.val / pubase vb sb) i j = 0 := by
    intro i j hij
    have : r.entry i.val j.val = 0 :=
      hrd i.val j.val i.isLt j.isLt (fun hc => hij (Fin.val_injective hc))
    simp [this]
  have hxd' : ∀ i j : Fin 3, i ≠ j →
      (fun i j : Fin 3 => x.entry i.val j.val / pubase vb sb) i j = 0 := by
    intro i j hij
    have : x.entry i.val j.val = 0 :=
      hxd i.val j.val i.isLt j.isLt (fun hc => hij (Fin.val_injective hc))
    simp [this]
  refine ⟨Y, hY, hYa, fun i => ?_⟩
  have hmp : mulVec3 (calc_MP (fun i j : Fin 3 => r.entry i.val j.val / pubase vb sb)
      (fun i j : Fin 3 => x.entry i.val j.val / pubase vb sb)) (S b).1 i =
      -2 * (r.entry i.val i.val / pubase vb sb) * (S b).1 i := by
    rw [mulVec3]
    rw [Finset.sum_eq_single_of_mem i (Finset.mem_univ i)]
    · rw [calc_MP_diag]
    · intro j _ hji
      rw [calc_MP_offdiag_zero _ _ hrd' hxd' i j (fun hc => hji hc.symm), zero_mul]
  have hmq : mulVec3 (calc_MQ (fun i j : Fin 3 => r.entry i.val j.val / pubase vb sb)
      (fun i j : Fin 3 => x.entry i.val j.val / pubase vb sb)) (S b).2 i =
      -2 * (x.entry i.val i.val / pubase vb sb) * (S b).2 i := by
    rw [mulVec3]
    rw [Finset.sum_eq_single_of_mem i (Finset.mem_univ i)]
    · rw [calc_MQ_diag]
    · intro j _ hji
      rw [calc_MQ_offdiag_zero _ _ hrd' hxd' i j (fun hc => hji hc.symm), zero_mul]
  rw [hYb]
  simp only [Pi.add_apply]
  rw [hmp, hmq]
  ring

end LinDist3Flow

namespace LinDist3Flow

/-- The spec's literal active load at node 1: `P = [0.1, 0.05, 0.08]`. -/
def pC7 : NpMat :=
  ⟨3, 2, fun i j =>
    if j = 1 then (if i = 0 then 0.1 else if i = 1 then 0.05 else 0.08) else 0⟩

/-- The spec's literal reactive load at node 1: `Q = [0.05, 0.02, 0.03]`. -/
def qC7 : NpMat :=
  ⟨3, 2, fun i j =>
    if j = 1 then (if i = 0 then 0.05 else if i = 1 then 0.02 else 0.03) else 0⟩

/-- C7: on the literal two-node example with positive load at node 1, the
voltage magnitude at node 1 is strictly below 1.0 on every phase. -/
theorem C7_positive_load_drop :
    ∃ V, constructAndSolve [0, 1] [⟨0, 1, rEx, xEx⟩] 4.16 1 pC7 qC7 none = some V ∧
      ∀ i, V i 1 < 1 := by
  have h01 : (0 : ℕ) ≠ 1 := by norm_num
  obtain ⟨S, hS, hSa, hSb⟩ := backward_two 0 1 h01 rEx xEx 4.16 1 pC7 qC7 _ _ _ _
    (col3_of pC7 0 (by norm_num [pC7]) rfl) (col3_of pC7 1 (by norm_num [pC7]) rfl)
    (col3_of qC7 0 (by norm_num [qC7]) rfl) (col3_of qC7 1 (by norm_num [qC7]) rfl)
  obtain ⟨Y, hY, hYa, hYb⟩ := forward_two_diag 0 1 h01 rEx xEx 4.16 1 rfl rfl rfl rfl
    (fun i j _ _ hij => by simp [rEx, hij]) (fun i j _ _ hij => by simp [xEx, hij])
    S (fun _ => 1)
  refine ⟨setCol (setCol (fun _ _ => 0) 0 (fun i => Real.sqrt (max (Y 0 i) 0)))
      1 (fun i => Real.sqrt (max (Y 1 i) 0)), ?_, fun i => ?_⟩
  · rw [constructAndSolve, init_two 0 1 h01 rEx xEx 4.16 1]
    simp only [Option.bind_eq_bind, Option.some_bind]
    exact solve_of_stages none hS hY (recover_two_explicit 0 1 h01 rEx xEx 4.16 1 Y)
  · have hcol : setCol (setCol (fun _ _ => 0) 0 (fun i => Real.sqrt (max (Y 0 i) 0)))
        1 (fun i => Real.sqrt (max (Y 1 i) 0)) i 1 = Real.sqrt (max (Y 1 i) 0) := by
      simp [setCol]
    rw [hcol]
    have hyb := hYb i
    rw [hSb] at hyb
    fin_cases i <;>
      rw [Real.sqrt_lt' one_pos, hyb] <;>
      norm_num [pC7, qC7, rEx, xEx, pubase]

end LinDist3Flow

namespace LinDist3Flow

/-- C4: two-node network, diagonal impedance matrices, load `P + jQ` on a
single phase of the child: the forward sweep's squared voltage at the
child on the loaded phase is `V_root^2 - 2 R P - 2 X Q` (R, X the
per-unit diagonal entries of that phase), and the unloaded phases keep
the root voltage unchanged in the solver's output. -/
theorem C4_diag_single_phase (a b : ℕ) (hab : a ≠ b) (r x : NpMat)
    (hr1 : r.rows = 3) (hr2 : r.cols = 3) (hx1 : x.rows = 3) (hx2 : x.cols = 3)
    (hrd : ∀ i j, i < 3 → j < 3 → i ≠ j → r.entry i j = 0)
    (hxd : ∀ i j, i < 3 → j < 3 → i ≠ j → x.entry i j = 0)
    (vb sb : ℝ) (φ : Fin 3) (P Q : ℝ) (p q : NpMat)
    (hpr : p.rows = 3) (hpc : p.cols = 2) (hqr : q.rows = 3) (hqc : q.cols = 2)
    (hpe : ∀ i j, p.entry i j = if i = φ.val ∧ j = 1 then P else 0)
    (hqe : ∀ i j, q.entry i j = if i = φ.val ∧ j = 1 then Q else 0)
    (vroot? : Option Vec3) (vroot : Vec3)
    (hv : vroot?.getD (fun _ => 1) = vroot) (hpos : ∀ i, 0 ≤ vroot i) :
    ∃ S Y V,
      init [a, b] [⟨a, b, r, x⟩] vb sb = some (twoSolver a b r x vb sb) ∧
      backward (twoSolver a b r x vb sb) p q = some S ∧
      forward (twoSolver a b r x vb sb) S vroot = some Y ∧
      solve (twoSolver a b r x vb sb) p q vroot? = some V ∧
      Y b φ = vroot φ ^ 2 - 2 * (r.entry φ.val φ.val / pubase vb sb) * P
                         - 2 * (x.entry φ.val φ.val / pubase vb sb) * Q ∧
      (∀ ψ : Fin 3, ψ ≠ φ → V ψ 1 = vroot ψ) := by
  subst hv
  obtain ⟨S, hS, hSa, hSb⟩ := backward_two a b hab r x vb sb p q _ _ _ _
    (col3_of p 0 (by omega) hpr) (col3_of p 1 (by omega) hpr)
    (col3_of q 0 (by omega) hqr) (col3_of q 1 (by omega) hqr)
  obtain ⟨Y, hY, hYa, hYb⟩ := forward_two_diag a b hab r x vb sb hr1 hr2 hx1 hx2
    hrd hxd S (vroot?.getD fun _ => 1)
  refine ⟨S, Y,
    setCol (setCol (fun _ _ => 0) 0 (fun i => Real.sqrt (max (Y a i) 0)))
      1 (fun i => Real.sqrt (max (Y b i) 0)),
    init_two a b hab r x vb sb, hS, hY,
    solve_of_stages vroot? hS hY (recover_two_explicit a b hab r x vb sb Y), ?_, ?_⟩
  · rw [hYb φ, hSb]
    simp [hpe, hqe]
  · intro ψ hψ
    have hvne : (ψ : ℕ) ≠ (φ : ℕ) := fun hc => hψ (Fin.val_injective hc)
    have hS1 : (S b).1 ψ = 0 := by rw [hSb]; simp [hpe, hvne]
    have hS2 : (S b).2 ψ = 0 := by rw [hSb]; simp [hqe, hvne]
    have hcol : setCol (setCol (fun _ _ => 0) 0 (fun i => Real.sqrt (max (Y a i) 0)))
        1 (fun i => Real.sqrt (max (Y b i) 0)) ψ 1 = Real.sqrt (max (Y b ψ) 0) := by
      simp [setCol]
    rw [hcol, hYb ψ, hS1, hS2, mul_zero, mul_zero, sub_zero, sub_zero]
    exact sqrt_max_sq _ (hpos ψ)

/-- Single-phase active load 0.1 on phase a of node 1. -/
def pC4 : NpMat := ⟨3, 2, fun i j => if i = 0 ∧ j = 1 then 0.1 else 0⟩

/-- Single-phase reactive load 0.05 on phase a of node 1. -/
def qC4 : NpMat := ⟨3, 2, fun i j => if i = 0 ∧ j = 1 then 0.05 else 0⟩

/-- C4, witness at a concrete two-node instance. -/
theorem C4_diag_single_phase_witness :
    ∃ S Y V,
      init [0, 1] [⟨0, 1, rEx, xEx⟩] 4.16 1 = some (twoSolver 0 1 rEx xEx 4.16 1) ∧
      backward (twoSolver 0 1 rEx xEx 4.16 1) pC4 qC4 = some S ∧
      forward (twoSolver 0 1 rEx xEx 4.16 1) S (fun _ => 1) = some Y ∧
      solve (twoSolver 0 1 rEx xEx 4.16 1) pC4 qC4 none = some V ∧
      Y 1 0 = 1 - 2 * (rEx.entry 0 0 / pubase 4.16 1) * 0.1
                - 2 * (xEx.entry 0 0 / pubase 4.16 1) * 0.05 ∧
      (∀ ψ : Fin 3, ψ ≠ 0 → V ψ 1 = 1) := by
  obtain ⟨S, Y, V, h1, h2, h3, h4, h5, h6⟩ :=
    C4_diag_single_phase 0 1 (by norm_num) rEx xEx rfl rfl rfl rfl
      (fun i j _ _ hij => by simp [rEx, hij]) (fun i j _ _ hij => by simp [xEx, hij])
      4.16 1 0 0.1 0.05 pC4 qC4 rfl rfl rfl rfl
      (fun i j => rfl) (fun i j => rfl) none (fun _ => 1) rfl (fun i => by norm_num)
  exact ⟨S, Y, V, h1, h2, h3, h4, by simpa using h5, fun ψ hψ => by simpa using h6 ψ hψ⟩

end LinDist3Flow

namespace LinDist3Flow

/-! ### C10 -/

/-- C10: for any constructed solver on duplicate-free nodes, any loads and
any non-negative root voltage (default all-ones), the root column of the
returned matrix is the root voltage itself: the forward sweep never
rewrites the root's squared voltage. -/
theorem C10_root_column (nodes : List ℕ) (lines : List Line) (vb sb : ℝ)
    (s : Solver) (hs : init nodes lines vb sb = some s) (hnd : nodes.Nodup)
    (root : ℕ) (hroot : nodes.head? = some root)
    (p q : NpMat) (vroot? : Option Vec3) (vroot : Vec3)
    (hv : vroot?.getD (fun _ => 1) = vroot) (hpos : ∀ i, 0 ≤ vroot i)
    (V : Fin 3 → ℕ → ℝ) (hV : solve s p q vroot? = some V) :
    ∀ i, V i 0 = vroot i := by
  obtain ⟨hsn, hsm, _⟩ := init_fields hs
  rw [solve_eq, hv] at hV
  rcases hb : backward s p q with _ | S
  · rw [hb] at hV; simp at hV
  rw [hb] at hV
  simp only [Option.bind_eq_bind, Option.some_bind] at hV
  rcases hf : forward s S vroot with _ | Y
  · rw [hf] at hV; simp at hV
  rw [hf] at hV
  simp only [Option.some_bind] at hV
  have hYroot : Y root = fun i => vroot i ^ 2 :=
    forward_preserves_root (by rw [hsn, hroot]) hf
  obtain ⟨V2, hV2, hvals⟩ := recover_ok hsn hsm hnd Y
  have hVV : V2 = V := by
    rw [hV2] at hV
    exact Option.some.inj hV
  have hlen : 0 < nodes.length := by
    cases nodes with
    | nil => simp at hroot
    | cons n0 t => simp
  have hget : nodes.get ⟨0, hlen⟩ = root := by
    cases nodes with
    | nil => simp at hroot
    | cons n0 t => simpa using hroot
  intro i
  have := hvals 0 hlen i
  rw [hVV, hget, hYroot] at this
  rw [this]
  exact sqrt_max_sq _ (hpos i)

/-- C10, witness: a loaded two-node network with root voltage 2. -/
theorem C10_root_column_witness :
    ∃ V, solve (twoSolver 0 1 rEx xEx 4.16 1) pC4 qC4 (some fun _ => 2) = some V ∧
      ∀ i, V i 0 = 2 := by
  have h01 : (0 : ℕ) ≠ 1 := by norm_num
  obtain ⟨S, hS, hSa, hSb⟩ := backward_two 0 1 h01 rEx xEx 4.16 1 pC4 qC4 _ _ _ _
    (col3_of pC4 0 (by norm_num [pC4]) rfl) (col3_of pC4 1 (by norm_num [pC4]) rfl)
    (col3_of qC4 0 (by norm_num [qC4]) rfl) (col3_of qC4 1 (by norm_num [qC4]) rfl)
  obtain ⟨Y, hY, hYa, hYb⟩ := forward_two 0 1 h01 rEx xEx 4.16 1
    (by norm_num [rEx]) (by norm_num [rEx]) (by norm_num [xEx]) (by norm_num [xEx])
    S (fun _ => 2)
  have hsolve : solve (twoSolver 0 1 rEx xEx 4.16 1) pC4 qC4 (some fun _ => 2) =
      some (setCol (setCol (fun _ _ => 0) 0 (fun i => Real.sqrt (max (Y 0 i) 0)))
        1 (fun i => Real.sqrt (max (Y 1 i) 0))) :=
    solve_of_stages (some fun _ => 2) hS hY (recover_two_explicit 0 1 h01 rEx xEx 4.16 1 Y)
  refine ⟨_, hsolve, ?_⟩
  have := C10_root_column [0, 1] [⟨0, 1, rEx, xEx⟩] 4.16 1
    (twoSolver 0 1 rEx xEx 4.16 1) (init_two 0 1 h01 rEx xEx 4.16 1)
    (by simp) 0 rfl pC4 qC4 (some fun _ => 2) (fun _ => 2) rfl
    (fun i => by norm_num) _ hsolve
  intro i
  exact this i

/-! ### C8 -/

/-- C8: on any constructed solver with duplicate-free nodes whose backward
and forward sweeps succeed, voltage recovery always succeeds; every output
entry is the square root of the zero-clamped squared voltage, a negative
squared voltage yields magnitude exactly zero, and no output is negative. -/
theorem C8_clamping (nodes : List ℕ) (lines : List Line) (vb sb : ℝ)
    (s : Solver) (hs : init nodes lines vb sb = some s) (hnd : nodes.Nodup)
    (p q : NpMat) (vroot? : Option Vec3) (vroot : Vec3)
    (hv : vroot?.getD (fun _ => 1) = vroot)
    (S : ℕ → PQ) (Y : ℕ → Vec3)
    (hb : backward s p q = some S) (hf : forward s S vroot = some Y) :
    ∃ V, solve s p q vroot? = some V ∧
      ∀ k (hk : k < nodes.length) (i : Fin 3),
        V i k = Real.sqrt (max (Y (nodes.get ⟨k, hk⟩) i) 0) ∧
        (Y (nodes.get ⟨k, hk⟩) i < 0 → V i k = 0) ∧
        0 ≤ V i k := by
  obtain ⟨hsn, hsm, _⟩ := init_fields hs
  obtain ⟨V, hrec, hvals⟩ := recover_ok hsn hsm hnd Y
  refine ⟨V, ?_, ?_⟩
  · subst hv
    exact solve_of_stages vroot? hb hf hrec
  · intro k hk i
    refine ⟨hvals k hk i, fun hneg => ?_, ?_⟩
    · rw [hvals k hk i, max_eq_right hneg.le, Real.sqrt_zero]
    · rw [hvals k hk i]
      exact Real.sqrt_nonneg _

/-- A pathological load: 100 per-unit active power on phase a of node 1,
large enough to drive the linearized squared voltage negative. -/
def pBig : NpMat := ⟨3, 2, fun i j => if i = 0 ∧ j = 1 then 100 else 0⟩

/-- C8, witness: the adversarial load produces a negative squared voltage
at node 1 phase a, and the returned magnitude there is exactly zero. -/
theorem C8_clamping_witness :
    ∃ V, solve (twoSolver 0 1 rEx xEx 4.16 1) pBig zeroLoad2 none = some V ∧
      V 0 1 = 0 ∧ 0 ≤ V 0 1 := by
  have h01 : (0 : ℕ) ≠ 1 := by norm_num
  obtain ⟨S, hS, hSa, hSb⟩ := backward_two 0 1 h01 rEx xEx 4.16 1 pBig zeroLoad2 _ _ _ _
    (col3_of pBig 0 (by norm_num [pBig]) rfl) (col3_of pBig 1 (by norm_num [pBig]) rfl)
    (col3_of zeroLoad2 0 (by norm_num [zeroLoad2]) rfl)
    (col3_of zeroLoad2 1 (by norm_num [zeroLoad2]) rfl)
  obtain ⟨Y, hY, hYa, hYb⟩ := forward_two_diag 0 1 h01 rEx xEx 4.16 1 rfl rfl rfl rfl
    (fun i j _ _ hij => by simp [rEx, hij]) (fun i j _ _ hij => by simp [xEx, hij])
    S (fun _ => 1)
  obtain ⟨V, hsolve, hvals⟩ := C8_clamping [0, 1] [⟨0, 1, rEx, xEx⟩] 4.16 1
    (twoSolver 0 1 rEx xEx 4.16 1) (init_two 0 1 h01 rEx xEx 4.16 1) (by simp)
    pBig zeroLoad2 none (fun _ => 1) rfl S Y hS hY
  have hyneg : Y 1 0 < 0 := by
    have hyb := hYb 0
    rw [hSb] at hyb
    rw [hyb]
    norm_num [pBig, zeroLoad2, rEx, xEx, pubase]
  have h12 : (1 : ℕ) < [0, 1].length := by norm_num
  have hget : [0, 1].get ⟨1, h12⟩ = 1 := rfl
  obtain ⟨hval, hzero, hnonneg⟩ := hvals 1 h12 0
  refine ⟨V, hsolve, hzero ?_, hnonneg⟩
  rw [hget]
  exact hyneg

end LinDist3Flow

namespace LinDist3Flow

/-! ### C3 -/

/-- A 4x4 resistance matrix (not 3x3). -/
def r4Ex : NpMat := ⟨4, 4, fun i j => if i = j then 0.3 else 0.05⟩

/-- A 4x4 reactance matrix (not 3x3). -/
def x4Ex : NpMat := ⟨4, 4, fun i j => if i = j then 0.1 else 0.02⟩

/-- A 3x5 active-load matrix: two load columns plus three junk columns. -/
def p5Ex : NpMat := ⟨3, 5, fun i j => if j = 1 then 0.1 else if 2 ≤ j then 7 else 0⟩

/-- A 3x5 reactive-load matrix: two load columns plus three junk columns. -/
def q5Ex : NpMat := ⟨3, 5, fun i j => if j = 1 then 0.05 else if 2 ≤ j then 9 else 0⟩

/-- C3, counterexample: with a 4x4 impedance matrix and 3x5 load matrices
on a two-node network, construction and solve both succeed — nothing
fails fast. -/
theorem C3_counterexample :
    (constructAndSolve [0, 1] [⟨0, 1, r4Ex, x4Ex⟩] 4.16 1 p5Ex q5Ex none).isSome
      = true := by
  have h01 : (0 : ℕ) ≠ 1 := by norm_num
  obtain ⟨S, hS, hSa, hSb⟩ := backward_two 0 1 h01 r4Ex x4Ex 4.16 1 p5Ex q5Ex _ _ _ _
    (col3_of p5Ex 0 (by norm_num [p5Ex]) rfl) (col3_of p5Ex 1 (by norm_num [p5Ex]) rfl)
    (col3_of q5Ex 0 (by norm_num [q5Ex]) rfl) (col3_of q5Ex 1 (by norm_num [q5Ex]) rfl)
  obtain ⟨Y, hY, hYa, hYb⟩ := forward_two 0 1 h01 r4Ex x4Ex 4.16 1
    (by norm_num [r4Ex]) (by norm_num [r4Ex]) (by norm_num [x4Ex]) (by norm_num [x4Ex])
    S (fun _ => 1)
  rw [constructAndSolve, init_two 0 1 h01 r4Ex x4Ex 4.16 1]
  simp only [Option.bind_eq_bind, Option.some_bind]
  rw [solve_of_stages none hS hY (recover_two_explicit 0 1 h01 r4Ex x4Ex 4.16 1 Y)]
  rfl

/-- C3, amended: malformed shapes are not rejected.  The coupling
computation reads only the top-left 3x3 block, so any impedance matrix
with at least three rows and columns is silently truncated and never
causes a failure; on the concrete two-node network, solving with the 4x4
impedance matrices and 3x5 load matrices returns exactly the result of
the explicitly truncated input (undersized data instead aborts with an
unannotated out-of-bounds failure, not a descriptive error). -/
theorem C3_amended :
    (∀ r x : NpMat, 3 ≤ r.rows → 3 ≤ r.cols → 3 ≤ x.rows → 3 ≤ x.cols →
      calc_M_matrices r x = calc_M_matrices ⟨3, 3, r.entry⟩ ⟨3, 3, x.entry⟩ ∧
      (calc_M_matrices r x).isSome = true) ∧
    constructAndSolve [0, 1] [⟨0, 1, r4Ex, x4Ex⟩] 4.16 1 p5Ex q5Ex none =
      constructAndSolve [0, 1] [⟨0, 1, ⟨3, 3, r4Ex.entry⟩, ⟨3, 3, x4Ex.entry⟩⟩] 4.16 1
        ⟨3, 2, p5Ex.entry⟩ ⟨3, 2, q5Ex.entry⟩ none := by
  constructor
  · intro r x hr1 hr2 hx1 hx2
    constructor
    · rw [calc_M_matrices, calc_M_matrices, read3x3_of_le r hr1 hr2,
        read3x3_of_le x hx1 hx2,
        read3x3_of_le ⟨3, 3, r.entry⟩ (by norm_num) (by norm_num),
        read3x3_of_le ⟨3, 3, x.entry⟩ (by norm_num) (by norm_num)]
    · rw [calc_M_matrices, read3x3_of_le r hr1 hr2, read3x3_of_le x hx1 hx2]
      rfl
  · have h01 : (0 : ℕ) ≠ 1 := by norm_num
    obtain ⟨S, hS, hSa, hSb⟩ := backward_two 0 1 h01 r4Ex x4Ex 4.16 1 p5Ex q5Ex
      (fun i => p5Ex.entry i.val 0) (fun i => p5Ex.entry i.val 1)
      (fun i => q5Ex.entry i.val 0) (fun i => q5Ex.entry i.val 1)
      (col3_of p5Ex 0 (by norm_num [p5Ex]) rfl) (col3_of p5Ex 1 (by norm_num [p5Ex]) rfl)
      (col3_of q5Ex 0 (by norm_num [q5Ex]) rfl) (col3_of q5Ex 1 (by norm_num [q5Ex]) rfl)
    obtain ⟨Y, hY, hYa, hYb⟩ := forward_two 0 1 h01 r4Ex x4Ex 4.16 1
      (by norm_num [r4Ex]) (by norm_num [r4Ex]) (by norm_num [x4Ex]) (by norm_num [x4Ex])
      S (fun _ => 1)
    obtain ⟨S2, hS2, hS2a, hS2b⟩ := backward_two 0 1 h01
      ⟨3, 3, r4Ex.entry⟩ ⟨3, 3, x4Ex.entry⟩ 4.16 1 ⟨3, 2, p5Ex.entry⟩ ⟨3, 2, q5Ex.entry⟩
      (fun i => p5Ex.entry i.val 0) (fun i => p5Ex.entry i.val 1)
      (fun i => q5Ex.entry i.val 0) (fun i => q5Ex.entry i.val 1)
      (col3_of ⟨3, 2, p5Ex.entry⟩ 0 (by norm_num) rfl)
      (col3_of ⟨3, 2, p5Ex.entry⟩ 1 (by norm_num) rfl)
      (col3_of ⟨3, 2, q5Ex.entry⟩ 0 (by norm_num) rfl)
      (col3_of ⟨3, 2, q5Ex.entry⟩ 1 (by norm_num) rfl)
    obtain ⟨Y2, hY2, hY2a, hY2b⟩ := forward_two 0 1 h01
      ⟨3, 3, r4Ex.entry⟩ ⟨3, 3, x4Ex.entry⟩ 4.16 1
      (by norm_num) (by norm_num) (by norm_num) (by norm_num)
      S2 (fun _ => 1)
    rw [constructAndSolve, constructAndSolve, init_two 0 1 h01 r4Ex x4Ex 4.16 1,
      init_two 0 1 h01 ⟨3, 3, r4Ex.entry⟩ ⟨3, 3, x4Ex.entry⟩ 4.16 1]
    simp only [Option.bind_eq_bind, Option.some_bind]
    rw [solve_of_stages none hS hY (recover_two_explicit 0 1 h01 r4Ex x4Ex 4.16 1 Y),
      solve_of_stages none hS2 hY2 (recover_two_explicit 0 1 h01
        ⟨3, 3, r4Ex.entry⟩ ⟨3, 3, x4Ex.entry⟩ 4.16 1 Y2)]
    have hY0 : Y 0 = Y2 0 := by rw [hYa, hY2a]
    have hY1 : Y 1 = Y2 1 := by
      rw [hYb, hY2b, hSb, hS2b]
    rw [hY0, hY1]

/-- C3, witness for the universal truncation part of the amended claim. -/
theorem C3_amended_witness :
    calc_M_matrices r4Ex x4Ex =
      calc_M_matrices ⟨3, 3, r4Ex.entry⟩ ⟨3, 3, x4Ex.entry⟩ ∧
      (calc_M_matrices r4Ex x4Ex).isSome = true :=
  C3_amended.1 r4Ex x4Ex (by norm_num [r4Ex]) (by norm_num [r4Ex])
    (by norm_num [x4Ex]) (by norm_num [x4Ex])

end LinDist3Flow

namespace LinDist3Flow

/-! ### C5 -/

/-- C5: on any valid leaf-to-root order (children strictly before their
parent, as the constructor's BFS produces on a tree), the backward sweep
succeeds and satisfies `SFlow[node] = load[node] + Σ SFlow[child]` with
all children final, and for any sibling-permuted variant of the same
topology the aggregated flow at every node is unchanged. -/
theorem C5_backward_aggregation
    (s s₂ : Solver) (ch ch₂ : ℕ → List ℕ) (idx : ℕ → ℕ)
    (p q : NpMat) (pc qc : ℕ → Vec3)
    (h : ValidUp s ch idx p q pc qc) (h₂ : ValidUp s₂ ch₂ idx p q pc qc)
    (hsame : ∀ n, n ∈ s.order_up ↔ n ∈ s₂.order_up)
    (hperm : ∀ n ∈ s.order_up, (ch₂ n).Perm (ch n)) :
    ∃ S S₂, backward s p q = some S ∧ backward s₂ p q = some S₂ ∧
      (∀ n ∈ s.order_up, S n = (pc n, qc n) + ((ch n).map S).sum) ∧
      (∀ n ∈ s₂.order_up, S₂ n = (pc n, qc n) + ((ch₂ n).map S₂).sum) ∧
      (∀ n ∈ s.order_up, S n = S₂ n) := by
  obtain ⟨S, hS, hSeq⟩ := backward_ok h
  obtain ⟨S₂, hS₂, hS₂eq⟩ := backward_ok h₂
  refine ⟨S, S₂, hS, hS₂, hSeq, hS₂eq, ?_⟩
  exact backward_unique h.2.2.2.2.2 hSeq
    (fun n hn => hS₂eq n ((hsame n).mp hn)) hperm

/-- Children lists of a 3-node star rooted at 0, siblings in order 1, 2. -/
def chA : ℕ → List ℕ := fun n => if n = 0 then [1, 2] else []

/-- Children lists of the same star with the siblings swapped. -/
def chB : ℕ → List ℕ := fun n => if n = 0 then [2, 1] else []

/-- The solver state for the star with sibling order 1, 2. -/
def sStarA : Solver :=
  ⟨[0, 1, 2], 3, mkNodeMap [0, 1, 2], 4160, 1000000, pubase 4.16 1,
   fun n => if n ≤ 2 then some (chA n) else none,
   fun n => if n = 1 ∨ n = 2 then some 0 else none,
   fun _ _ => none, [0, 1, 2], [2, 1, 0]⟩

/-- The solver state for the star with sibling order 2, 1. -/
def sStarB : Solver :=
  ⟨[0, 1, 2], 3, mkNodeMap [0, 1, 2], 4160, 1000000, pubase 4.16 1,
   fun n => if n ≤ 2 then some (chB n) else none,
   fun n => if n = 1 ∨ n = 2 then some 0 else none,
   fun _ _ => none, [0, 2, 1], [1, 2, 0]⟩

/-- A 3x3 active-load matrix with distinct entries. -/
def pStar : NpMat := ⟨3, 3, fun i j => (i : ℝ) + 2 * (j : ℝ) + 1⟩

/-- A 3x3 reactive-load matrix with distinct entries. -/
def qStar : NpMat := ⟨3, 3, fun i j => (i : ℝ) + 3 * (j : ℝ) + 2⟩

/-- C5, witness: the two sibling orders of the concrete star aggregate to
the same flows. -/
theorem C5_backward_aggregation_witness :
    ∃ S S₂, backward sStarA pStar qStar = some S ∧
      backward sStarB pStar qStar = some S₂ ∧
      (∀ n ∈ sStarA.order_up, S n =
        ((fun i : Fin 3 => pStar.entry i.val n), (fun i : Fin 3 => qStar.entry i.val n)) +
          ((chA n).map S).sum) ∧
      (∀ n ∈ sStarB.order_up, S₂ n =
        ((fun i : Fin 3 => pStar.entry i.val n), (fun i : Fin 3 => qStar.entry i.val n)) +
          ((chB n).map S₂).sum) ∧
      (∀ n ∈ sStarA.order_up, S n = S₂ n) := by
  have hbeforeA : ∀ d m rest, sStarA.order_up = d ++ m :: rest → ∀ c ∈ chA m, c ∈ d := by
    intro d m rest heq c hc
    rcases d with _ | ⟨a1, d⟩
    · injection heq with h1 h2
      subst h1
      simp [chA] at hc
    · rcases d with _ | ⟨a2, d⟩
      · injection heq with h1 h2
        injection h2 with h3 h4
        subst h3
        simp [chA] at hc
      · rcases d with _ | ⟨a3, d⟩
        · injection heq with h1 h2
          injection h2 with h3 h4
          injection h4 with h5 h6
          subst h1; subst h3; subst h5
          simp [chA] at hc
          rcases hc with rfl | rfl <;> simp
        · injection heq with h1 h2
          injection h2 with h3 h4
          injection h4 with h5 h6
          exact absurd h6.symm (by simp)
  have hbeforeB : ∀ d m rest, sStarB.order_up = d ++ m :: rest → ∀ c ∈ chB m, c ∈ d := by
    intro d m rest heq c hc
    rcases d with _ | ⟨a1, d⟩
    · injection heq with h1 h2
      subst h1
      simp [chB] at hc
    · rcases d with _ | ⟨a2, d⟩
      · injection heq with h1 h2
        injection h2 with h3 h4
        subst h3
        simp [chB] at hc
      · rcases d with _ | ⟨a3, d⟩
        · injection heq with h1 h2
          injection h2 with h3 h4
          injection h4 with h5 h6
          subst h1; subst h3; subst h5
          simp [chB] at hc
          rcases hc with rfl | rfl <;> simp
        · injection heq with h1 h2
          injection h2 with h3 h4
          injection h4 with h5 h6
          exact absurd h6.symm (by simp)
  have hA : ValidUp sStarA chA (fun n => n) pStar qStar
      (fun n => fun i : Fin 3 => pStar.entry i.val n)
      (fun n => fun i : Fin 3 => qStar.entry i.val n) := by
    refine ⟨by decide, ?_, ?_, ?_, ?_, hbeforeA⟩
    · intro n hn
      fin_cases hn <;> simp [sStarA, chA]
    · intro n hn
      fin_cases hn <;>
        simp [sStarA, mkNodeMap, nmStep, List.enum, List.enumFrom, Function.update]
    · intro n hn
      fin_cases hn <;> exact col3_of pStar _ (by norm_num [pStar]) rfl
    · intro n hn
      fin_cases hn <;> exact col3_of qStar _ (by norm_num [qStar]) rfl
  have hB : ValidUp sStarB chB (fun n => n) pStar qStar
      (fun n => fun i : Fin 3 => pStar.entry i.val n)
      (fun n => fun i : Fin 3 => qStar.entry i.val n) := by
    refine ⟨by decide, ?_, ?_, ?_, ?_, hbeforeB⟩
    · intro n hn
      fin_cases hn <;> simp [sStarB, chB]
    · intro n hn
      fin_cases hn <;>
        simp [sStarB, mkNodeMap, nmStep, List.enum, List.enumFrom, Function.update]
    · intro n hn
      fin_cases hn <;> exact col3_of pStar _ (by norm_num [pStar]) rfl
    · intro n hn
      fin_cases hn <;> exact col3_of qStar _ (by norm_num [qStar]) rfl
  exact C5_backward_aggregation sStarA sStarB chA chB (fun n => n) pStar qStar
    (fun n => fun i : Fin 3 => pStar.entry i.val n)
    (fun n => fun i : Fin 3 => qStar.entry i.val n)
    hA hB (fun n => by constructor <;> (intro hn; fin_cases hn <;> simp [sStarA, sStarB]))
    (fun n hn => by
      fin_cases hn
      · simp [chA, chB]
      · simp [chA, chB]
      · simp only [chA, chB, if_pos rfl]
        exact List.Perm.swap 1 2 [])

end LinDist3Flow
